/-
Verification of the markup parser and document-building pipeline of the
image-to-word-converter repository (src/utils/docx_generator.py).

The embedding models strings as `List Char`.  Python `str.strip()` and the
regex class `\s` are modelled over the ASCII whitespace characters; all inputs
appearing in the claims are ASCII.  Lines handed to the classifier come from
`text.split('\n')`, so they never contain a newline character; the regex `.`
(which does not match a newline) is modelled accordingly inside the inline
formatter, where fragments may in principle contain newlines.
-/
import Mathlib

namespace ImgWord

/-- Strings are modelled as lists of characters. -/
abbrev Str := List Char

/-- Coercion from Lean string literals used to write concrete inputs. -/
def chars (s : String) : Str := s.toList

/-- ASCII whitespace, the model of Python's `str.strip()` character class and
of the regex class `\s`. -/
def isWsChar (c : Char) : Bool :=
  c = ' ' || c = '\t' || c = '\n' || c = '\r' || c = Char.ofNat 11 || c = Char.ofNat 12

/-- Model of Python `str.strip()`: remove whitespace from both ends. -/
def pyStrip (l : Str) : Str :=
  ((l.dropWhile isWsChar).reverse.dropWhile isWsChar).reverse

/-- Model of Python `str.split(sep)` for a single-character separator: split at
every occurrence, keeping empty pieces; the empty string yields `[""]`. -/
def splitOnChar (sep : Char) : Str → List Str
  | [] => [[]]
  | c :: rest =>
    if c = sep then [] :: splitOnChar sep rest
    else
      match splitOnChar sep rest with
      | s :: ss => (c :: s) :: ss
      | [] => [[c]]

/-! ## Inline span formatter (`DocxGenerator._add_formatted_text`)

The Python code splits a fragment with
`re.split(r'(\*\*.*?\*\*|\*[^*]+\*|\$.*?\$)', text)` and then classifies each
part by its first and last characters.  The scan below models `re.split` with
a capturing group: the regex engine looks for the leftmost match, trying the
three alternatives in order at each position. -/

/-- Earliest index `k` such that `l[k] = '*'`, `l[k+1] = '*'` and no newline
occurs before index `k` (the lazy `.*?` of `\*\*.*?\*\*` cannot cross a
newline). -/
def findBoldClose : Str → Option Nat
  | c₁ :: c₂ :: rest =>
    if c₁ = '*' && c₂ = '*' then some 0
    else if c₁ = '\n' then none
    else (findBoldClose (c₂ :: rest)).map (· + 1)
  | _ => none

/-- Index of the first `'*'` in the list (for `\*[^*]+\*`; the negated class
`[^*]` does match newlines). -/
def findStar : Str → Option Nat
  | [] => none
  | c :: rest => if c = '*' then some 0 else (findStar rest).map (· + 1)

/-- Earliest index of a `'$'` not preceded by a newline (the lazy `.*?` of
`\$.*?\$` cannot cross a newline). -/
def findDollarClose : Str → Option Nat
  | [] => none
  | c :: rest =>
    if c = '$' then some 0
    else if c = '\n' then none
    else (findDollarClose rest).map (· + 1)

/-- Attempt to match the alternation `\*\*.*?\*\*|\*[^*]+\*|\$.*?\$` at the
start of the list, alternatives tried left to right; returns the matched span
including its delimiters. -/
def matchAt : Str → Option Str
  | [] => none
  | c₁ :: rest₁ =>
    if c₁ = '*' then
      match rest₁ with
      | [] => none
      | c₂ :: rest₂ =>
        if c₂ = '*' then
          match findBoldClose rest₂ with
          | some k => some ('*' :: '*' :: rest₂.take (k + 2))
          | none => none
        else
          match findStar (c₂ :: rest₂) with
          | some r => some ('*' :: (c₂ :: rest₂).take (r + 1))
          | none => none
    else if c₁ = '$' then
      match findDollarClose rest₁ with
      | some q => some ('$' :: rest₁.take (q + 1))
      | none => none
    else none

/-- Part of an `re.split` result: either text between matches (`raw`, may be
empty) or a matched span (`mtch`, delimiters included). -/
inductive Seg where
  | raw (s : Str)
  | mtch (s : Str)
deriving DecidableEq

/-- Underlying text of a segment, as the Python code sees it in the parts
list. -/
def Seg.str : Seg → Str
  | .raw s => s
  | .mtch s => s

/-- Scanner for `re.split`: walk the text, at each position trying `matchAt`;
`acc` holds (reversed) the raw text accumulated since the last match.  The
`fuel` argument makes the recursion structural; it is always run with
`fuel ≥ length of the text`, which is enough because every step consumes at
least one character. -/
def scanAuxF : Nat → Str → Str → List Seg
  | 0, acc, _ => [.raw acc.reverse]
  | _ + 1, acc, [] => [.raw acc.reverse]
  | fuel + 1, acc, c :: rest =>
    match matchAt (c :: rest) with
    | some span => .raw acc.reverse :: .mtch span :: scanAuxF fuel [] ((c :: rest).drop span.length)
    | none => scanAuxF fuel (c :: acc) rest

/-- Model of `re.split(pattern, text)` with the capturing group retained and
tagged: raw parts alternate with matched spans, starting and ending with a
(possibly empty) raw part. -/
def scanSegs (cs : Str) : List Seg := scanAuxF cs.length [] cs

/-- The parts list exactly as `re.split` returns it to the Python loop. -/
def splitParts (cs : Str) : List Str := (scanSegs cs).map Seg.str

/-- Run styles.  The Python code renders a formula as an italic purple run;
the logical style recorded here is `formula`, per the data model. -/
inductive RunStyle where
  | plain
  | bold
  | italic
  | formula
deriving DecidableEq

/-- Styled inline run. -/
structure Run where
  style : RunStyle
  text : Str
deriving DecidableEq

/-- Model of the Python slice `s[n:-n]` (empty when the string is too
short). -/
def dropBoth (n : Nat) (s : Str) : Str := (s.drop n).take (s.length - 2 * n)

/-- Classification of one nonempty part, mirroring the `if/elif` chain of
`_add_formatted_text`: `**…**` is bold, `*…*` (not `**…`) is italic, `$…$` is
a formula, anything else is plain. -/
def classifyPart (p : Str) : Run :=
  if ['*', '*'].isPrefixOf p && ['*', '*'].isSuffixOf p then ⟨.bold, dropBoth 2 p⟩
  else if ['*'].isPrefixOf p && ['*'].isSuffixOf p && !(['*', '*'].isPrefixOf p) then
    ⟨.italic, dropBoth 1 p⟩
  else if ['$'].isPrefixOf p && ['$'].isSuffixOf p then ⟨.formula, dropBoth 1 p⟩
  else ⟨.plain, p⟩

/-- Model of `_add_formatted_text`: split the fragment, skip empty parts, and
emit one run per remaining part.  This is the `format` function of the
spec. -/
def addFormattedText (text : Str) : List Run :=
  (splitParts text).filterMap fun p => if p.isEmpty then none else some (classifyPart p)

/-- Concatenation of the texts of a run sequence, ignoring style. -/
def runsText (rs : List Run) : Str := (rs.map Run.text).flatten

/-- Delimiters of a matched span removed: two characters from each end for a
`**…**` span, one character otherwise. -/
def stripSpanDelims (s : Str) : Str :=
  if ['*', '*'].isPrefixOf s then dropBoth 2 s else dropBoth 1 s

/-- Modelled from the spec's words (for comparison with the code): the
fragment with only the recognized delimiter characters of matched spans
removed — raw text between matches kept verbatim. -/
def specDelimsRemoved (cs : Str) : Str :=
  ((scanSegs cs).map fun s =>
    match s with
    | .raw t => t
    | .mtch t => stripSpanDelims t).flatten

/-! ## Block classifier and segmenter (`DocxGenerator._process_content`)

The Python loop walks the lines of `text.split('\n')`, keeping a pending list
accumulator (`current_list_type`, `list_items`) and dispatching each stripped
line through an `if/elif` chain.  A table opener also consumes the following
lines containing a pipe.  The `Option` layer of the results marks the places
where the Python code could raise (`max()` on an empty sequence inside
`_add_table_from_markdown`): `none` means "raises". -/

/-- List kinds tracked by `current_list_type`. -/
inductive LKind where
  | bullet
  | numbered
deriving DecidableEq

/-- Structural block of the output document.  Heading levels are the ones the
code passes to `add_heading` (`'## '` gives 1, `'### '` gives 2, `'# '` gives
0).  In a `table` block the first row is the header row and `numCols` is the
column count of the generated table. -/
inductive Block where
  | heading (level : Nat) (text : Str)
  | para (text : Str)
  | bulletList (items : List Str)
  | numberedList (items : List Str)
  | quote (text : Str)
  | diagram (desc : Str)
  | table (rows : List (List Str)) (numCols : Nat)
deriving DecidableEq

/-- Model of `_add_list` guarded by `if list_items:`: an empty pending list
produces nothing; otherwise one block is emitted, numbered when the tracked
kind is `'numbered'` and bulleted otherwise (including the `None` kind). -/
def flushBlocks (lt : Option LKind) (items : List Str) : List Block :=
  if items.isEmpty then []
  else
    match lt with
    | some .numbered => [.numberedList items]
    | _ => [.bulletList items]

/-- Model of `re.match(r'^\d+\.\s', line)` together with
`re.sub(r'^\d+\.\s', '', line)`: one or more ASCII digits, a period and one
whitespace character; returns the remainder of the line on success. -/
def numMatch (l : Str) : Option Str :=
  let ds := l.takeWhile Char.isDigit
  if ds.isEmpty then none
  else
    match l.drop ds.length with
    | '.' :: c :: r => if isWsChar c then some r else none
    | _ => none

/-- Model of Python's substring test `pat in l`. -/
def containsSub (l pat : Str) : Bool :=
  match l with
  | [] => pat.isEmpty
  | _ :: rest => pat.isPrefixOf l || containsSub rest pat

/-- Suffix of `l` after the first occurrence of `pat`, when `pat` occurs. -/
def afterFirstSub (l pat : Str) : Option Str :=
  if pat.isPrefixOf l then some (l.drop pat.length)
  else
    match l with
    | [] => none
    | _ :: rest => afterFirstSub rest pat

/-- Model of `re.search(r'\[DIAGRAM:\s*(.*?)\]', line).group(1)` on a line
without newlines: the match anchors at the first occurrence of `[DIAGRAM:`
and succeeds exactly when a `]` occurs later in the line; the group is the
text after the greedy whitespace run up to the first such `]`. -/
def diagMatch (l : Str) : Option Str :=
  match afterFirstSub l (chars "[DIAGRAM:") with
  | none => none
  | some after =>
    if after.contains ']' then some ((after.dropWhile isWsChar).takeWhile (· ≠ ']'))
    else none

/-- The bullet-glyph marker literal of the source.  The source file stores the
bullet glyph as the three mojibake characters U+00E2, U+20AC, U+00A2 followed
by a space (a double-encoded `•`), and that four-character string is what
`line.startswith` is given. -/
def glyphMarker : Str := [Char.ofNat 0xE2, Char.ofNat 0x20AC, Char.ofNat 0xA2, ' ']

/-- Classification of one stripped line, one constructor per arm of the
`if/elif` chain of `_process_content`, tested in source order. -/
inductive LineClass where
  | blank
  | heading1
  | heading2
  | heading0
  | bullet
  | numbered (remainder : Str)
  | quote
  | diagram
  | table
  | para
deriving DecidableEq

/-- The `if/elif` dispatch of `_process_content`, in source order: blank,
`'## '` (not `'### '`), `'### '`, `'# '` (not `'## '`), bullet markers,
numbered marker, `'> '`, `[DIAGRAM:` substring, at least two pipes,
paragraph fallback. -/
def classifyLine (l : Str) : LineClass :=
  if l.isEmpty then .blank
  else if (chars "## ").isPrefixOf l && !(chars "### ").isPrefixOf l then .heading1
  else if (chars "### ").isPrefixOf l then .heading2
  else if (chars "# ").isPrefixOf l && !(chars "## ").isPrefixOf l then .heading0
  else if (chars "- ").isPrefixOf l || glyphMarker.isPrefixOf l then .bullet
  else
    match numMatch l with
    | some r => .numbered r
    | none =>
      if (chars "> ").isPrefixOf l then .quote
      else if containsSub l (chars "[DIAGRAM:") then .diagram
      else if l.contains '|' && 2 ≤ l.count '|' then .table
      else .para

/-- Model of the inner collection loop of the table arm: keep consuming raw
lines while they contain a pipe (tested unstripped, appended stripped);
return the collected lines and the remaining lines. -/
def collectTable : List Str → List Str × List Str
  | [] => ([], [])
  | l :: rest =>
    if l.contains '|' then
      ((pyStrip l) :: (collectTable rest).1, (collectTable rest).2)
    else ([], l :: rest)

/-- Model of `re.match(r'^[\s|:-]+$', line)`: a nonempty line consisting only
of whitespace, pipes, colons and dashes (the Markdown header-separator
convention). -/
def isSepLine (l : Str) : Bool :=
  !l.isEmpty && l.all fun c => isWsChar c || c = '|' || c = ':' || c = '-'

/-- Cell list of one table line:
`[cell.strip() for cell in line.split('|') if cell.strip()]` — split on every
pipe, trim each field, keep the nonempty ones. -/
def parseCells (l : Str) : List Str :=
  ((splitOnChar '|' l).map pyStrip).filter fun c => !c.isEmpty

/-- Row contributed by one collected table line: `none` when the line is a
separator line or yields no nonempty cell (the `if cells:` check). -/
def rowOf (l : Str) : Option (List Str) :=
  if isSepLine l then none
  else if (parseCells l).isEmpty then none
  else some (parseCells l)

/-- Model of Python `max` over a list of naturals: `none` (a raise) exactly on
the empty list. -/
def pyMax : List Nat → Option Nat
  | [] => none
  | x :: xs =>
    some
      (match pyMax xs with
      | none => x
      | some m => max x m)

/-- Model of `_add_table_from_markdown`.  The outer `Option` marks the raise
of `max()` on an empty sequence (never reached thanks to the `if not rows:`
guard); the inner `Option` is the emitted block, `none` when the method
returns without adding a table. -/
def addTableFromMarkdown (tlines : List Str) : Option (Option Block) :=
  if tlines.isEmpty then some none
  else if (tlines.filterMap rowOf).isEmpty then some none
  else
    match pyMax ((tlines.filterMap rowOf).map List.length) with
    | none => none
    | some n => some (some (.table (tlines.filterMap rowOf) n))

/-- Main loop of `_process_content` over the raw lines, carrying the pending
list accumulator.  `fuel` makes the recursion structural (the table arm skips
several lines at once); it is always run with `fuel ≥ number of lines`, which
is enough because every step consumes at least one line. -/
def processLinesF : Nat → List Str → Option LKind → List Str → Option (List Block)
  | 0, _, lt, items => some (flushBlocks lt items)
  | _ + 1, [], lt, items => some (flushBlocks lt items)
  | fuel + 1, rawLine :: rest, lt, items =>
    match classifyLine (pyStrip rawLine) with
    | .blank =>
      (processLinesF fuel rest (if items.isEmpty then lt else none) []).map
        fun tl => flushBlocks lt items ++ tl
    | .heading1 =>
      (processLinesF fuel rest (if items.isEmpty then lt else none) []).map
        fun tl => flushBlocks lt items ++ .heading 1 ((pyStrip rawLine).drop 3) :: tl
    | .heading2 =>
      (processLinesF fuel rest (if items.isEmpty then lt else none) []).map
        fun tl => flushBlocks lt items ++ .heading 2 ((pyStrip rawLine).drop 4) :: tl
    | .heading0 =>
      (processLinesF fuel rest (if items.isEmpty then lt else none) []).map
        fun tl => flushBlocks lt items ++ .heading 0 ((pyStrip rawLine).drop 2) :: tl
    | .bullet => processLinesF fuel rest (some .bullet) (items ++ [(pyStrip rawLine).drop 2])
    | .numbered r => processLinesF fuel rest (some .numbered) (items ++ [r])
    | .quote =>
      (processLinesF fuel rest (if items.isEmpty then lt else none) []).map
        fun tl => flushBlocks lt items ++ .quote ((pyStrip rawLine).drop 2) :: tl
    | .diagram =>
      (processLinesF fuel rest (if items.isEmpty then lt else none) []).map
        fun tl =>
          flushBlocks lt items ++
            (match diagMatch (pyStrip rawLine) with
            | some d => [Block.diagram d]
            | none => []) ++ tl
    | .table =>
      match addTableFromMarkdown (pyStrip rawLine :: (collectTable rest).1) with
      | none => none
      | some tb =>
        (processLinesF fuel (collectTable rest).2 (if items.isEmpty then lt else none) []).map
          fun tl => flushBlocks lt items ++ tb.toList ++ tl
    | .para =>
      (processLinesF fuel rest (if items.isEmpty then lt else none) []).map
        fun tl => flushBlocks lt items ++ .para (pyStrip rawLine) :: tl

/-- The loop run with exactly enough fuel. -/
def processLines (lines : List Str) (lt : Option LKind) (items : List Str) :
    Option (List Block) :=
  processLinesF lines.length lines lt items

/-- Model of `_process_content`: split on newlines and run the loop with the
empty accumulator.  This is the `segment` function of the spec; `none` marks a
raise (proved unreachable). -/
def processContent (text : Str) : Option (List Block) :=
  processLines (splitOnChar '\n' text) none []

/-! ## Document generator (`DocxGenerator` object state and `generate_docx`) -/

/-- Logical content of a generated document: the title passed to
`create_document` and the block sequence produced from the text.  The title
heading, separator rule and binary serialization are presentation details
outside the logical model. -/
structure GenDocument where
  title : Str
  blocks : List Block
deriving DecidableEq

/-- Generator object: `__init__` sets `self.document = None`;
`create_document` overwrites it with a fresh document. -/
structure DocxGenerator where
  document : Option GenDocument
deriving DecidableEq

/-- Model of `DocxGenerator()` (`self.document = None`). -/
def DocxGenerator.init : DocxGenerator := ⟨none⟩

/-- Model of `create_document`: the generator's document is replaced by a
fresh one built from the text alone; the previous generator state is never
read.  Returns the updated generator and the produced document. -/
def createDocument (g : DocxGenerator) (text title : Str) :
    Option (DocxGenerator × GenDocument) :=
  match g with
  | _ =>
    match processContent text with
    | none => none
    | some bs => some (⟨some ⟨title, bs⟩⟩, ⟨title, bs⟩)

/-- Model of the module-level `generate_docx`: construct a fresh generator
and run `create_document` on it. -/
def generateDocx (text title : Str) : Option GenDocument :=
  (createDocument DocxGenerator.init text title).map Prod.snd

/-! ## Input builders used to state line-level properties -/

/-- Well-behaved item text: nonempty, no newline, and no trailing whitespace,
so that a line built from it survives `split('\n')` and `strip()`
unchanged. -/
def goodItem (t : Str) : Bool :=
  !t.isEmpty && !t.contains '\n' &&
    (match t.getLast? with
    | some c => !isWsChar c
    | none => false)

/-- A bullet item line `"- " + t`. -/
def bulletLine (t : Str) : Str := '-' :: ' ' :: t

/-- A numbered item line `"1. " + u`. -/
def numberedLine (u : Str) : Str := '1' :: '.' :: ' ' :: u

/-- Join lines with newline separators (the left inverse of
`split('\n')`). -/
def joinLines (ls : List Str) : Str := (List.intersperse ['\n'] ls).flatten

/-! ## Lemmas about the inline formatter -/

theorem isPrefixOf_append_self (s r : Str) : s.isPrefixOf (s ++ r) = true := by
  induction s with
  | nil => simp [List.isPrefixOf]
  | cons a as ih => simp [List.isPrefixOf, ih]

theorem isSuffixOf_append_self (l t : Str) : t.isSuffixOf (l ++ t) = true := by
  unfold List.isSuffixOf
  rw [List.reverse_append]
  exact isPrefixOf_append_self t.reverse l.reverse

theorem findBoldClose_take :
    ∀ {l : Str} {k : Nat}, findBoldClose l = some k →
      k + 2 ≤ l.length ∧ l.take (k + 2) = l.take k ++ ['*', '*'] := by
  intro l
  induction l with
  | nil => intro k h; simp [findBoldClose] at h
  | cons c₁ rest ih =>
    intro k h
    match rest with
    | [] => simp [findBoldClose] at h
    | c₂ :: rest' =>
      rw [findBoldClose] at h
      by_cases hb : (c₁ = '*' && c₂ = '*') = true
      · rw [if_pos hb] at h
        obtain ⟨h1, h2⟩ := by simpa using hb
        cases h
        subst h1; subst h2
        simp
      · rw [if_neg hb] at h
        by_cases hn : c₁ = '\n'
        · simp [hn] at h
        · rw [if_neg hn] at h
          obtain ⟨k', hk', rfl⟩ := Option.map_eq_some'.mp h
          obtain ⟨ihl, iht⟩ := ih hk'
          constructor
          · simpa [Nat.add_le_add_iff_right, Nat.succ_le_succ_iff] using
              Nat.succ_le_succ ihl
          · show c₁ :: (c₂ :: rest').take (k' + 2) = (c₁ :: (c₂ :: rest').take k') ++ ['*', '*']
            rw [iht]
            rfl

theorem findStar_take :
    ∀ {l : Str} {r : Nat}, findStar l = some r →
      r + 1 ≤ l.length ∧ l.take (r + 1) = l.take r ++ ['*'] := by
  intro l
  induction l with
  | nil => intro r h; simp [findStar] at h
  | cons c rest ih =>
    intro r h
    rw [findStar] at h
    by_cases hc : c = '*'
    · rw [if_pos hc] at h
      cases h
      subst hc
      simp
    · rw [if_neg hc] at h
      obtain ⟨r', hr', rfl⟩ := Option.map_eq_some'.mp h
      obtain ⟨ihl, iht⟩ := ih hr'
      refine ⟨Nat.succ_le_succ ihl, ?_⟩
      show c :: rest.take (r' + 1) = (c :: rest.take r') ++ ['*']
      rw [iht]
      rfl

theorem findDollarClose_take :
    ∀ {l : Str} {q : Nat}, findDollarClose l = some q →
      q + 1 ≤ l.length ∧ l.take (q + 1) = l.take q ++ ['$'] := by
  intro l
  induction l with
  | nil => intro q h; simp [findDollarClose] at h
  | cons c rest ih =>
    intro q h
    rw [findDollarClose] at h
    by_cases hc : c = '$'
    · rw [if_pos hc] at h
      cases h
      subst hc
      simp
    · rw [if_neg hc] at h
      by_cases hn : c = '\n'
      · simp [hn] at h
      · rw [if_neg hn] at h
        obtain ⟨q', hq', rfl⟩ := Option.map_eq_some'.mp h
        obtain ⟨ihl, iht⟩ := ih hq'
        refine ⟨Nat.succ_le_succ ihl, ?_⟩
        show c :: rest.take (q' + 1) = (c :: rest.take q') ++ ['$']
        rw [iht]
        rfl

/-- Facts about a successful match: the span is nonempty, it is the prefix of
the text of its own length, and the run classification of the span strips
exactly its delimiters. -/
theorem matchAt_spec :
    ∀ {cs span : Str}, matchAt cs = some span →
      span ≠ [] ∧ span ++ cs.drop span.length = cs ∧
        (classifyPart span).text = stripSpanDelims span := by
  intro cs span h
  match cs with
  | [] => simp [matchAt] at h
  | c₁ :: rest₁ =>
    rw [matchAt.eq_def] at h
    simp only [] at h
    by_cases h₁ : c₁ = '*'
    · rw [if_pos h₁] at h
      subst h₁
      match rest₁ with
      | [] => simp at h
      | c₂ :: rest₂ =>
        simp only [] at h
        by_cases h₂ : c₂ = '*'
        · rw [if_pos h₂] at h
          subst h₂
          cases hk : findBoldClose rest₂ with
          | none => rw [hk] at h; simp at h
          | some k =>
            rw [hk] at h
            injection h with h'
            subst h'
            obtain ⟨hlen, htake⟩ := findBoldClose_take hk
            have hlt : (rest₂.take (k + 2)).length = k + 2 := by
              rw [List.length_take]
              exact Nat.min_eq_left hlen
            refine ⟨by simp, ?_, ?_⟩
            · show ('*' :: '*' :: rest₂.take (k + 2)) ++
                rest₂.drop ((rest₂.take (k + 2)).length) = '*' :: '*' :: rest₂
              rw [hlt]
              simp [List.take_append_drop]
            · have hpre : (['*', '*'] : Str).isPrefixOf ('*' :: '*' :: rest₂.take (k + 2)) =
                  true := by simp [List.isPrefixOf]
              have hsuf : (['*', '*'] : Str).isSuffixOf ('*' :: '*' :: rest₂.take (k + 2)) =
                  true := by
                rw [htake]
                exact isSuffixOf_append_self ('*' :: '*' :: rest₂.take k) ['*', '*']
              have c1 : ((['*', '*'] : Str).isPrefixOf ('*' :: '*' :: rest₂.take (k + 2)) &&
                  (['*', '*'] : Str).isSuffixOf ('*' :: '*' :: rest₂.take (k + 2))) = true := by
                rw [hpre, hsuf]
                rfl
              rw [classifyPart, if_pos c1, stripSpanDelims, if_pos hpre]
        · rw [if_neg h₂] at h
          cases hr : findStar (c₂ :: rest₂) with
          | none => rw [hr] at h; simp at h
          | some r =>
            rw [hr] at h
            injection h with h'
            subst h'
            obtain ⟨hlen, htake⟩ := findStar_take hr
            have hlt : ((c₂ :: rest₂).take (r + 1)).length = r + 1 := by
              rw [List.length_take]
              exact Nat.min_eq_left hlen
            refine ⟨by simp, ?_, ?_⟩
            · show ('*' :: (c₂ :: rest₂).take (r + 1)) ++
                (c₂ :: rest₂).drop (((c₂ :: rest₂).take (r + 1)).length) = '*' :: c₂ :: rest₂
              rw [hlt]
              simp [List.take_append_drop]
            · have hpre2 : (['*', '*'] : Str).isPrefixOf ('*' :: (c₂ :: rest₂).take (r + 1)) =
                  false := by
                rw [List.take_succ_cons]
                have hb : ('*' == c₂) = false := beq_eq_false_iff_ne.mpr (Ne.symm h₂)
                simp only [List.isPrefixOf, hb, Bool.false_and, Bool.and_false]
              have hpre1 : (['*'] : Str).isPrefixOf ('*' :: (c₂ :: rest₂).take (r + 1)) =
                  true := by simp [List.isPrefixOf]
              have hsuf1 : (['*'] : Str).isSuffixOf ('*' :: (c₂ :: rest₂).take (r + 1)) =
                  true := by
                rw [htake]
                exact isSuffixOf_append_self ('*' :: (c₂ :: rest₂).take r) ['*']
              have c1 : ¬((['*', '*'] : Str).isPrefixOf ('*' :: (c₂ :: rest₂).take (r + 1)) &&
                  (['*', '*'] : Str).isSuffixOf ('*' :: (c₂ :: rest₂).take (r + 1))) = true := by
                rw [hpre2, Bool.false_and]
                exact Bool.false_ne_true
              have c2 : ((['*'] : Str).isPrefixOf ('*' :: (c₂ :: rest₂).take (r + 1)) &&
                  (['*'] : Str).isSuffixOf ('*' :: (c₂ :: rest₂).take (r + 1)) &&
                    !(['*', '*'] : Str).isPrefixOf ('*' :: (c₂ :: rest₂).take (r + 1))) =
                  true := by
                rw [hpre1, hsuf1, hpre2]
                rfl
              have s1 : ¬((['*', '*'] : Str).isPrefixOf ('*' :: (c₂ :: rest₂).take (r + 1)) =
                  true) := by
                rw [hpre2]
                exact Bool.false_ne_true
              rw [classifyPart, if_neg c1, if_pos c2, stripSpanDelims, if_neg s1]
    · rw [if_neg h₁] at h
      by_cases h₃ : c₁ = '$'
      · rw [if_pos h₃] at h
        subst h₃
        cases hq : findDollarClose rest₁ with
        | none => rw [hq] at h; simp at h
        | some q =>
          rw [hq] at h
          injection h with h'
          subst h'
          obtain ⟨hlen, htake⟩ := findDollarClose_take hq
          have hlt : (rest₁.take (q + 1)).length = q + 1 := by
            rw [List.length_take]
            exact Nat.min_eq_left hlen
          refine ⟨by simp, ?_, ?_⟩
          · show ('$' :: rest₁.take (q + 1)) ++
              rest₁.drop ((rest₁.take (q + 1)).length) = '$' :: rest₁
            rw [hlt]
            simp [List.take_append_drop]
          · have hpre2 : (['*', '*'] : Str).isPrefixOf ('$' :: rest₁.take (q + 1)) = false := by
              simp [List.isPrefixOf]
            have hpre1 : (['*'] : Str).isPrefixOf ('$' :: rest₁.take (q + 1)) = false := by
              simp [List.isPrefixOf]
            have hdp : (['$'] : Str).isPrefixOf ('$' :: rest₁.take (q + 1)) = true := by
              simp [List.isPrefixOf]
            have hds : (['$'] : Str).isSuffixOf ('$' :: rest₁.take (q + 1)) = true := by
              rw [htake]
              exact isSuffixOf_append_self ('$' :: rest₁.take q) ['$']
            have c1 : ¬((['*', '*'] : Str).isPrefixOf ('$' :: rest₁.take (q + 1)) &&
                (['*', '*'] : Str).isSuffixOf ('$' :: rest₁.take (q + 1))) = true := by
              rw [hpre2, Bool.false_and]
              exact Bool.false_ne_true
            have c2 : ¬((['*'] : Str).isPrefixOf ('$' :: rest₁.take (q + 1)) &&
                (['*'] : Str).isSuffixOf ('$' :: rest₁.take (q + 1)) &&
                  !(['*', '*'] : Str).isPrefixOf ('$' :: rest₁.take (q + 1))) = true := by
              rw [hpre1, Bool.false_and, Bool.false_and]
              exact Bool.false_ne_true
            have c3 : ((['$'] : Str).isPrefixOf ('$' :: rest₁.take (q + 1)) &&
                (['$'] : Str).isSuffixOf ('$' :: rest₁.take (q + 1))) = true := by
              rw [hdp, hds]
              rfl
            have s1 : ¬((['*', '*'] : Str).isPrefixOf ('$' :: rest₁.take (q + 1)) = true) := by
              rw [hpre2]
              exact Bool.false_ne_true
            rw [classifyPart, if_neg c1, if_neg c2, if_pos c3, stripSpanDelims, if_neg s1]
      · rw [if_neg h₃] at h
        simp at h

theorem matchAt_length_pos {cs span : Str} (h : matchAt cs = some span) :
    1 ≤ span.length := by
  have hne := (matchAt_spec h).1
  cases span with
  | nil => exact absurd rfl hne
  | cons a t => simp

/-- Concatenating the parts of the scan reproduces the accumulated prefix
followed by the remaining text. -/
theorem scanAuxF_flatten :
    ∀ (fuel : Nat) (acc cs : Str), cs.length ≤ fuel →
      ((scanAuxF fuel acc cs).map Seg.str).flatten = acc.reverse ++ cs := by
  intro fuel
  induction fuel with
  | zero =>
    intro acc cs h
    have : cs = [] := List.length_eq_zero.mp (Nat.le_zero.mp h)
    subst this
    simp [scanAuxF, Seg.str]
  | succ n ih =>
    intro acc cs h
    match cs with
    | [] => simp [scanAuxF, Seg.str]
    | c :: rest =>
      rw [scanAuxF]
      cases hm : matchAt (c :: rest) with
      | none =>
        rw [ih (c :: acc) rest (by simpa using Nat.lt_succ_iff.mp (Nat.lt_of_lt_of_le
          (Nat.lt_of_lt_of_le (Nat.lt_succ_self rest.length) h) (Nat.le_refl _)))]
        simp
      | some span =>
        obtain ⟨hne, happ, _⟩ := matchAt_spec hm
        have hpos : 1 ≤ span.length := matchAt_length_pos hm
        have hdl : ((c :: rest).drop span.length).length ≤ n := by
          rw [List.length_drop]
          have h1 : (c :: rest).length ≤ n + 1 := h
          omega
        rw [List.map_cons, List.map_cons, List.flatten_cons, List.flatten_cons,
          ih [] ((c :: rest).drop span.length) hdl]
        simp [Seg.str]
        rw [happ]

/-- Every matched span in the scan output comes from a successful `matchAt`. -/
theorem scanAuxF_mtch :
    ∀ (fuel : Nat) (acc cs s : Str), Seg.mtch s ∈ scanAuxF fuel acc cs →
      ∃ t, matchAt t = some s := by
  intro fuel
  induction fuel with
  | zero =>
    intro acc cs s h
    simp [scanAuxF] at h
  | succ n ih =>
    intro acc cs s h
    match cs with
    | [] => simp [scanAuxF] at h
    | c :: rest =>
      rw [scanAuxF] at h
      cases hm : matchAt (c :: rest) with
      | none =>
        rw [hm] at h
        exact ih (c :: acc) rest s h
      | some span =>
        rw [hm] at h
        simp only [List.mem_cons] at h
        rcases h with h | h | h
        · exact absurd h (by simp)
        · injection h with h'
          exact ⟨c :: rest, h' ▸ hm⟩
        · exact ih [] ((c :: rest).drop span.length) s h

/-- A part classified plain is emitted verbatim. -/
theorem classifyPart_plain {p : Str} (h : (classifyPart p).style = RunStyle.plain) :
    classifyPart p = ⟨RunStyle.plain, p⟩ := by
  revert h
  unfold classifyPart
  split
  · intro h
    exact absurd h (by simp)
  · split
    · intro h
      exact absurd h (by simp)
    · split
      · intro h
        exact absurd h (by simp)
      · intro h
        rfl

/-- The text concatenation of `format`'s runs, per part: empty parts vanish,
other parts contribute their classified text. -/
theorem runsText_parts (ps : List Str) :
    runsText (ps.filterMap fun p => if p.isEmpty then none else some (classifyPart p)) =
      (ps.map fun p => if p.isEmpty then [] else (classifyPart p).text).flatten := by
  induction ps with
  | nil => simp [runsText]
  | cons p rest ih =>
    by_cases hp : p.isEmpty
    · simp only [List.filterMap_cons, List.map_cons, if_pos hp]
      rw [List.flatten_cons, ih]
      simp
    · simp only [List.filterMap_cons, List.map_cons, if_neg hp]
      rw [List.flatten_cons, ← ih]
      rfl

/-- Decidable side condition for the round-trip: every raw part of the split
is classified plain by the run classifier (matched spans unconstrained). -/
def rawPlain : Seg → Bool
  | .raw t => decide ((classifyPart t).style = RunStyle.plain)
  | .mtch _ => true

/-- C1 (amended).  The round-trip holds whenever every between-match segment
is emitted as a plain run: concatenating the texts of `format`'s runs equals
the fragment with exactly the matched-span delimiters removed.  Without that
proviso the claim fails (see the counterexample): a leftover segment that
itself begins and ends with a delimiter pair is re-classified as a styled run
and its boundary delimiter characters are stripped even though they were
never part of a match. -/
theorem claim_C1 (f : Str) (h : ∀ s ∈ scanSegs f, rawPlain s = true) :
    runsText (addFormattedText f) = specDelimsRemoved f := by
  unfold addFormattedText specDelimsRemoved splitParts
  rw [runsText_parts, List.map_map]
  apply congrArg List.flatten
  apply List.map_congr_left
  intro seg hseg
  cases seg with
  | raw s =>
    by_cases hs : s.isEmpty
    · have hnil : s = [] := List.isEmpty_iff.mp hs
      simp [Seg.str, Function.comp, hs, hnil]
    · have hpl : (classifyPart s).style = RunStyle.plain := by
        have := h _ hseg
        simpa [rawPlain] using this
      simp [Seg.str, Function.comp, hs, classifyPart_plain hpl]
  | mtch s =>
    obtain ⟨t, ht⟩ := scanAuxF_mtch _ _ _ _ hseg
    obtain ⟨hne, _, htext⟩ := matchAt_spec ht
    have hs : s.isEmpty = false := by
      cases s with
      | nil => exact absurd rfl hne
      | cons a u => rfl
    simp [Seg.str, Function.comp, hs, htext]

/-- C1 counterexample.  The fragment `"*"` has no match, so the claim as
stated demands a single plain run `"*"` and a round-trip result `"*"`; the
code instead classifies the leftover part as an italic run and strips the
lone delimiter, producing an empty concatenation. -/
theorem claim_C1_cex :
    addFormattedText (chars "*") = [⟨RunStyle.italic, []⟩] ∧
      specDelimsRemoved (chars "*") = chars "*" ∧
      runsText (addFormattedText (chars "*")) ≠ specDelimsRemoved (chars "*") := by
  decide

/-- Witness instantiating `claim_C1` at a concrete fragment. -/
theorem claim_C1_witness :
    (∀ s ∈ scanSegs (chars "a **b** and *i* plus $x$ end"), rawPlain s = true) ∧
      runsText (addFormattedText (chars "a **b** and *i* plus $x$ end")) =
        specDelimsRemoved (chars "a **b** and *i* plus $x$ end") :=
  ⟨by decide, claim_C1 _ (by decide)⟩

/-! ## Lemmas about the segmenter -/

theorem collectTable_snd_length : ∀ ls : List Str, (collectTable ls).2.length ≤ ls.length := by
  intro ls
  induction ls with
  | nil => simp [collectTable]
  | cons l rest ih =>
    rw [collectTable]
    by_cases h : l.contains '|'
    · rw [if_pos h]
      exact Nat.le_succ_of_le ih
    · rw [if_neg h]

/-- The loop result does not depend on the fuel, as long as there is at least
as much fuel as there are lines. -/
theorem processLinesF_congr :
    ∀ (f g : Nat) (lines : List Str) (lt : Option LKind) (items : List Str),
      lines.length ≤ f → lines.length ≤ g →
      processLinesF f lines lt items = processLinesF g lines lt items := by
  intro f
  induction f with
  | zero =>
    intro g lines lt items hf _
    have hnil : lines = [] := List.length_eq_zero.mp (Nat.le_zero.mp hf)
    subst hnil
    cases g with
    | zero => rfl
    | succ g' => rfl
  | succ n ih =>
    intro g lines lt items hf hg
    match lines with
    | [] =>
      cases g with
      | zero => rfl
      | succ g' => rfl
    | l :: rest =>
      cases g with
      | zero => exact absurd (Nat.le_zero.mp hg) (by simp)
      | succ g' =>
        have hrn : rest.length ≤ n := by simpa using hf
        have hrg : rest.length ≤ g' := by simpa using hg
        have hcn : (collectTable rest).2.length ≤ n :=
          le_trans (collectTable_snd_length rest) hrn
        have hcg : (collectTable rest).2.length ≤ g' :=
          le_trans (collectTable_snd_length rest) hrg
        rw [processLinesF, processLinesF]
        cases hcl : classifyLine (pyStrip l) with
        | blank =>
          dsimp only
          rw [ih g' rest _ _ hrn hrg]
        | heading1 =>
          dsimp only
          rw [ih g' rest _ _ hrn hrg]
        | heading2 =>
          dsimp only
          rw [ih g' rest _ _ hrn hrg]
        | heading0 =>
          dsimp only
          rw [ih g' rest _ _ hrn hrg]
        | bullet =>
          dsimp only
          rw [ih g' rest _ _ hrn hrg]
        | numbered r =>
          dsimp only
          rw [ih g' rest _ _ hrn hrg]
        | quote =>
          dsimp only
          rw [ih g' rest _ _ hrn hrg]
        | diagram =>
          dsimp only
          rw [ih g' rest _ _ hrn hrg]
        | table =>
          dsimp only
          cases addTableFromMarkdown (pyStrip l :: (collectTable rest).1) with
          | none => rfl
          | some tb =>
            dsimp only
            rw [ih g' ((collectTable rest).2) _ _ hcn hcg]
        | para =>
          dsimp only
          rw [ih g' rest _ _ hrn hrg]

theorem processLines_cons_eq (l : Str) (rest : List Str) (lt : Option LKind)
    (items : List Str) :
    processLines (l :: rest) lt items = processLinesF (rest.length + 1) (l :: rest) lt items :=
  rfl

/-- The table builder never reaches the raising `max()`. -/
theorem addTableFromMarkdown_isSome (tlines : List Str) :
    (addTableFromMarkdown tlines).isSome := by
  rw [addTableFromMarkdown]
  by_cases h : tlines.isEmpty
  · rw [if_pos h]
    rfl
  · rw [if_neg h]
    by_cases hr : (tlines.filterMap rowOf).isEmpty
    · rw [if_pos hr]
      rfl
    · rw [if_neg hr]
      cases hrows : tlines.filterMap rowOf with
      | nil => exact absurd (by rw [hrows]; rfl) hr
      | cons r rs => rfl

/-- The loop never reaches a raising operation, whatever the input. -/
theorem processLinesF_isSome :
    ∀ (fuel : Nat) (lines : List Str) (lt : Option LKind) (items : List Str),
      (processLinesF fuel lines lt items).isSome := by
  intro fuel
  induction fuel with
  | zero => intro lines lt items; rfl
  | succ n ih =>
    intro lines lt items
    match lines with
    | [] => rfl
    | l :: rest =>
      rw [processLinesF]
      cases hcl : classifyLine (pyStrip l) with
      | blank => simpa using ih rest _ _
      | heading1 => simpa using ih rest _ _
      | heading2 => simpa using ih rest _ _
      | heading0 => simpa using ih rest _ _
      | bullet => exact ih rest _ _
      | numbered r => exact ih rest _ _
      | quote => simpa using ih rest _ _
      | diagram => simpa using ih rest _ _
      | table =>
        have ht := addTableFromMarkdown_isSome (pyStrip l :: (collectTable rest).1)
        cases htb : addTableFromMarkdown (pyStrip l :: (collectTable rest).1) with
        | none =>
          rw [htb] at ht
          exact absurd ht (by simp)
        | some tb =>
          simpa using ih ((collectTable rest).2) _ _
      | para => simpa using ih rest _ _

theorem pyMax_le : ∀ {xs : List Nat} {n : Nat}, pyMax xs = some n → ∀ x ∈ xs, x ≤ n := by
  intro xs
  induction xs with
  | nil => intro n h; simp [pyMax] at h
  | cons x rest ih =>
    intro n h x' hx'
    rw [pyMax] at h
    cases hr : pyMax rest with
    | none =>
      simp only [hr, Option.some.injEq] at h
      have hnil : rest = [] := by
        cases rest with
        | nil => rfl
        | cons y ys => simp [pyMax] at hr
      subst hnil
      simp at hx'
      subst hx'
      exact Nat.le_of_eq h
    | some m =>
      simp only [hr, Option.some.injEq] at h
      subst h
      rcases List.mem_cons.mp hx' with h1 | h1
      · subst h1
        exact le_sup_left
      · exact le_trans (ih hr x' h1) le_sup_right

theorem pyMax_mem : ∀ {xs : List Nat} {n : Nat}, pyMax xs = some n → n ∈ xs := by
  intro xs
  induction xs with
  | nil => intro n h; simp [pyMax] at h
  | cons x rest ih =>
    intro n h
    rw [pyMax] at h
    cases hr : pyMax rest with
    | none =>
      simp only [hr, Option.some.injEq] at h
      subst h
      exact List.mem_cons_self _ _
    | some m =>
      simp only [hr, Option.some.injEq] at h
      subst h
      rcases le_total x m with h1 | h1
      · rw [sup_eq_right.mpr h1]
        exact List.mem_cons_of_mem _ (ih hr)
      · rw [sup_eq_left.mpr h1]
        exact List.mem_cons_self _ _

theorem filterMap_head {α β : Type} (f : α → Option β) :
    ∀ (l : List α) (b : β) (bs : List β), l.filterMap f = b :: bs →
      ∃ pre x post, l = pre ++ x :: post ∧ (∀ p ∈ pre, f p = none) ∧ f x = some b := by
  intro l
  induction l with
  | nil => intro b bs h; simp at h
  | cons a rest ih =>
    intro b bs h
    rw [List.filterMap_cons] at h
    cases hf : f a with
    | none =>
      rw [hf] at h
      obtain ⟨pre, x, post, heq, hpre, hx⟩ := ih b bs h
      refine ⟨a :: pre, x, post, by rw [heq]; rfl, ?_, hx⟩
      intro p hp
      rcases List.mem_cons.mp hp with h1 | h1
      · subst h1
        exact hf
      · exact hpre p h1
    | some b' =>
      rw [hf] at h
      injection h with h1 h2
      subst h1
      exact ⟨[], a, rest, rfl, by simp, hf⟩

theorem rowOf_not_sep {l : Str} {r : List Str} (h : rowOf l = some r) :
    isSepLine l = false := by
  by_cases hs : isSepLine l
  · rw [rowOf, if_pos hs] at h
    exact absurd h (by simp)
  · exact eq_false_of_ne_true hs

/-- C6 (confirmed).  Every data row of an emitted table comes from a collected
line that is not a separator line; the table's column count `n` bounds every
row's cell count and is attained by some row (so it is the maximum, and short
rows stay short — no padding is fabricated); and the head of the row list —
the header row the code renders bold — is the row of the first collected line
that contributes one. -/
theorem claim_C6 (tlines : List Str) (rows : List (List Str)) (n : Nat)
    (h : addTableFromMarkdown tlines = some (some (Block.table rows n))) :
    (∀ r ∈ rows, ∃ l ∈ tlines, isSepLine l = false ∧ rowOf l = some r) ∧
      (∀ r ∈ rows, r.length ≤ n) ∧ (∃ r ∈ rows, r.length = n) ∧
      (∃ pre l post, tlines = pre ++ l :: post ∧ (∀ p ∈ pre, rowOf p = none) ∧
        rowOf l = rows.head?) := by
  rw [addTableFromMarkdown] at h
  by_cases he : tlines.isEmpty
  · rw [if_pos he] at h
    exact absurd h (by simp)
  · rw [if_neg he] at h
    by_cases hr : (tlines.filterMap rowOf).isEmpty
    · rw [if_pos hr] at h
      exact absurd h (by simp)
    · rw [if_neg hr] at h
      cases hmax : pyMax ((tlines.filterMap rowOf).map List.length) with
      | none =>
        rw [hmax] at h
        exact absurd h (by simp)
      | some m =>
        rw [hmax] at h
        have hrows : tlines.filterMap rowOf = rows := by
          have := h
          simp only [Option.some.injEq, Block.table.injEq] at this
          exact this.1
        have hmn : m = n := by
          have := h
          simp only [Option.some.injEq, Block.table.injEq] at this
          exact this.2
        subst hmn
        rw [hrows] at hmax
        refine ⟨?_, ?_, ?_, ?_⟩
        · intro r hrr
          rw [← hrows] at hrr
          obtain ⟨l, hl, hfl⟩ := List.mem_filterMap.mp hrr
          exact ⟨l, hl, rowOf_not_sep hfl, hfl⟩
        · intro r hrr
          exact pyMax_le hmax _ (List.mem_map_of_mem List.length hrr)
        · obtain ⟨r, hrr, hlen⟩ := List.mem_map.mp (pyMax_mem hmax)
          exact ⟨r, hrr, hlen⟩
        · cases hc : rows with
          | nil =>
            exact absurd (by rw [hrows.trans hc]; rfl) hr
          | cons r0 rs =>
            obtain ⟨pre, x, post, heq, hpre, hx⟩ :=
              filterMap_head rowOf tlines r0 rs (hrows.trans hc)
            refine ⟨pre, x, post, heq, hpre, ?_⟩
            rw [List.head?_cons]
            exact hx

/-- Witness instantiating `claim_C6` on the spec's end-to-end table scenario
(the separator row is dropped, the header is the first retained row, and the
column count is 2). -/
theorem claim_C6_witness :
    ∃ r ∈ [[chars "A", chars "B"], [chars "1", chars "2"]], r.length = 2 :=
  (claim_C6 [chars "| A | B |", chars "|---|---|", chars "| 1 | 2 |"]
    [[chars "A", chars "B"], [chars "1", chars "2"]] 2 (by decide)).2.2.1

/-- C7 counterexample.  The claim says the interior empty cell of
`"| a |  | b |"` is preserved at its position; the code instead drops every
cell whose trimmed content is empty, leaving only the two nonempty cells. -/
theorem claim_C7_cex :
    parseCells (chars "| a |  | b |") = [chars "a", chars "b"] ∧
      rowOf (chars "| a |  | b |") = some [chars "a", chars "b"] := by
  decide

/-- C7 (amended).  Each collected row is split on every pipe and each field
trimmed, but the retained cells are exactly the nonempty trimmed fields, in
order: every empty trimmed field — leading, trailing or interior — is
dropped, not only the ones produced by a leading or trailing pipe. -/
theorem claim_C7 (l : Str) :
    List.Sublist (parseCells l) ((splitOnChar '|' l).map pyStrip) ∧
      (∀ c ∈ parseCells l, c ≠ []) ∧
      (∀ c ∈ (splitOnChar '|' l).map pyStrip, c ≠ [] → c ∈ parseCells l) := by
  refine ⟨List.filter_sublist _, ?_, ?_⟩
  · intro c hc
    have := (List.mem_filter.mp hc).2
    simpa using this
  · intro c hc hne
    exact List.mem_filter.mpr ⟨hc, by simpa using hne⟩

/-- C8 (confirmed).  The segmenter terminates with a value for every input
string: the one genuinely partial internal operation — Python's `max()` over
the row lengths, modelled as the raising branch of `addTableFromMarkdown` —
is only reached behind the `if not rows:` guard, so no input makes `segment`
raise; the empty string yields the empty block sequence.  The formatter
`addFormattedText` is a total function of its fragment by construction, with
no raising operation to model. -/
theorem claim_C8 :
    (∀ s : Str, ∃ bs, processContent s = some bs) ∧ processContent (chars "") = some [] := by
  constructor
  · intro s
    exact Option.isSome_iff_exists.mp
      (processLinesF_isSome (splitOnChar '\n' s).length (splitOnChar '\n' s) none [])
  · decide

/-- C9 (confirmed).  `create_document` overwrites the generator's only
mutable attribute with a freshly built document before reading anything, so
the document produced depends only on the text and title arguments: two calls
on generators with arbitrary (different) prior states agree, and the
module-level `generate_docx`, which builds a fresh generator per call, returns
exactly that document. -/
theorem claim_C9 (g₁ g₂ : DocxGenerator) (text title : Str) :
    (createDocument g₁ text title).map Prod.snd =
        (createDocument g₂ text title).map Prod.snd ∧
      generateDocx text title = (createDocument g₁ text title).map Prod.snd := by
  cases g₁
  cases g₂
  exact ⟨rfl, rfl⟩

/-- C10 (confirmed).  A flushed table run in which no collected line
contributes a row — every line is a separator line or has no nonempty cell —
produces no `Table` block at all: the builder returns without emitting
anything, and on such input the whole segmentation is empty. -/
theorem claim_C10 (tlines : List Str) (h : ∀ l ∈ tlines, rowOf l = none) :
    addTableFromMarkdown tlines = some none ∧ processContent (chars "|--|--|") = some [] := by
  constructor
  · rw [addTableFromMarkdown]
    by_cases he : tlines.isEmpty
    · rw [if_pos he]
    · rw [if_neg he]
      have hrows : tlines.filterMap rowOf = [] := List.filterMap_eq_nil_iff.mpr h
      rw [hrows]
      rfl
  · decide

/-- Witness instantiating `claim_C10` on a run of two separator lines. -/
theorem claim_C10_witness :
    addTableFromMarkdown [chars "|---|", chars "| :- |"] = some none :=
  (claim_C10 [chars "|---|", chars "| :- |"] (by decide)).1

/-! ## Line-level lemmas: stripping, classification and single steps -/

theorem dropWhile_eq_self_of_head {p : Char → Bool} {l : Str}
    (h : ∀ c, l.head? = some c → p c = false) : l.dropWhile p = l := by
  cases l with
  | nil => rfl
  | cons c cs =>
    rw [List.dropWhile_cons, h c rfl]
    simp

theorem pyStrip_eq_self {l : Str} (h1 : ∀ c, l.head? = some c → isWsChar c = false)
    (h2 : ∀ c, l.getLast? = some c → isWsChar c = false) : pyStrip l = l := by
  rw [pyStrip, dropWhile_eq_self_of_head h1]
  rw [dropWhile_eq_self_of_head fun c hc => h2 c (by rwa [List.head?_reverse] at hc)]
  exact List.reverse_reverse l

theorem getLast?_cons_ne {a : Char} {l : Str} (h : l ≠ []) :
    (a :: l).getLast? = l.getLast? := by
  cases l with
  | nil => exact absurd rfl h
  | cons b bs => exact List.getLast?_cons_cons

theorem goodItem_ne_nil {t : Str} (h : goodItem t = true) : t ≠ [] := by
  intro hnil
  subst hnil
  simp [goodItem] at h

theorem goodItem_last {t : Str} (h : goodItem t = true) :
    ∀ c, t.getLast? = some c → isWsChar c = false := by
  intro c hc
  rw [goodItem, Bool.and_eq_true, Bool.and_eq_true] at h
  rw [hc] at h
  simpa using h.2

theorem goodItem_no_newline {t : Str} (h : goodItem t = true) :
    t.contains '\n' = false := by
  rw [goodItem, Bool.and_eq_true, Bool.and_eq_true] at h
  simpa using h.1.2

theorem goodItem_cons {a : Char} {t : Str} (ha : (a == '\n') = false)
    (h : goodItem t = true) : goodItem (a :: t) = true := by
  rw [goodItem, Bool.and_eq_true, Bool.and_eq_true]
  refine ⟨⟨by simp, ?_⟩, ?_⟩
  · rw [List.contains_cons]
    simp only [Bool.not_eq_true', Bool.or_eq_false_iff]
    constructor
    · exact beq_eq_false_iff_ne.mpr (Ne.symm (beq_eq_false_iff_ne.mp ha))
    · exact goodItem_no_newline h
  · rw [getLast?_cons_ne (goodItem_ne_nil h)]
    rw [goodItem, Bool.and_eq_true, Bool.and_eq_true] at h
    exact h.2

theorem pyStrip_marker2 {m₁ m₂ : Char} {t : Str} (hm : isWsChar m₁ = false)
    (ht : goodItem t = true) : pyStrip (m₁ :: m₂ :: t) = m₁ :: m₂ :: t := by
  apply pyStrip_eq_self
  · intro c hc
    injection hc with hc'
    subst hc'
    exact hm
  · intro c hc
    rw [getLast?_cons_ne (by simp), getLast?_cons_ne (goodItem_ne_nil ht)] at hc
    exact goodItem_last ht c hc

theorem classifyLine_bullet (t : Str) : classifyLine ('-' :: ' ' :: t) = LineClass.bullet := by
  rw [classifyLine]
  simp [List.isPrefixOf, chars, glyphMarker]

theorem classifyLine_numbered (u : Str) :
    classifyLine ('1' :: '.' :: ' ' :: u) = LineClass.numbered u := rfl

theorem classifyLine_heading1 (t : Str) :
    classifyLine ('#' :: '#' :: ' ' :: t) = LineClass.heading1 := by
  rw [classifyLine]
  simp [List.isPrefixOf, chars]

theorem classifyLine_heading2 (t : Str) :
    classifyLine ('#' :: '#' :: '#' :: ' ' :: t) = LineClass.heading2 := by
  rw [classifyLine]
  simp [List.isPrefixOf, chars]

theorem classifyLine_heading0 (t : Str) :
    classifyLine ('#' :: ' ' :: t) = LineClass.heading0 := by
  rw [classifyLine]
  simp [List.isPrefixOf, chars]

theorem processLines_bullet_step {l : Str} (rest : List Str) (lt : Option LKind)
    (items : List Str) (h : classifyLine (pyStrip l) = LineClass.bullet) :
    processLines (l :: rest) lt items =
      processLines rest (some .bullet) (items ++ [(pyStrip l).drop 2]) := by
  show processLinesF (rest.length + 1) (l :: rest) lt items = _
  rw [processLinesF, h]
  rfl

theorem processLines_numbered_step {l : Str} {r : Str} (rest : List Str) (lt : Option LKind)
    (items : List Str) (h : classifyLine (pyStrip l) = LineClass.numbered r) :
    processLines (l :: rest) lt items =
      processLines rest (some .numbered) (items ++ [r]) := by
  show processLinesF (rest.length + 1) (l :: rest) lt items = _
  rw [processLinesF, h]
  rfl

theorem processLines_heading1_step {l : Str} (rest : List Str) (lt : Option LKind)
    (items : List Str) (h : classifyLine (pyStrip l) = LineClass.heading1) :
    processLines (l :: rest) lt items =
      (processLines rest (if items.isEmpty then lt else none) []).map
        fun tl => flushBlocks lt items ++ Block.heading 1 ((pyStrip l).drop 3) :: tl := by
  show processLinesF (rest.length + 1) (l :: rest) lt items = _
  rw [processLinesF, h]
  rfl

theorem processLines_heading2_step {l : Str} (rest : List Str) (lt : Option LKind)
    (items : List Str) (h : classifyLine (pyStrip l) = LineClass.heading2) :
    processLines (l :: rest) lt items =
      (processLines rest (if items.isEmpty then lt else none) []).map
        fun tl => flushBlocks lt items ++ Block.heading 2 ((pyStrip l).drop 4) :: tl := by
  show processLinesF (rest.length + 1) (l :: rest) lt items = _
  rw [processLinesF, h]
  rfl

theorem processLines_heading0_step {l : Str} (rest : List Str) (lt : Option LKind)
    (items : List Str) (h : classifyLine (pyStrip l) = LineClass.heading0) :
    processLines (l :: rest) lt items =
      (processLines rest (if items.isEmpty then lt else none) []).map
        fun tl => flushBlocks lt items ++ Block.heading 0 ((pyStrip l).drop 2) :: tl := by
  show processLinesF (rest.length + 1) (l :: rest) lt items = _
  rw [processLinesF, h]
  rfl

theorem processLines_diagram_step {l : Str} (rest : List Str) (lt : Option LKind)
    (items : List Str) (h : classifyLine (pyStrip l) = LineClass.diagram) :
    processLines (l :: rest) lt items =
      (processLines rest (if items.isEmpty then lt else none) []).map
        fun tl =>
          flushBlocks lt items ++
            (match diagMatch (pyStrip l) with
            | some d => [Block.diagram d]
            | none => []) ++ tl := by
  show processLinesF (rest.length + 1) (l :: rest) lt items = _
  rw [processLinesF, h]
  rfl

theorem processLines_nil (lt : Option LKind) (items : List Str) :
    processLines [] lt items = some (flushBlocks lt items) := rfl

/-! ## Joining and splitting lines -/

theorem splitOnChar_no_sep {sep : Char} :
    ∀ {l : Str}, l.contains sep = false → splitOnChar sep l = [l] := by
  intro l
  induction l with
  | nil => intro _; rfl
  | cons c cs ih =>
    intro h
    rw [List.contains_cons, Bool.or_eq_false_iff] at h
    rw [splitOnChar, if_neg (Ne.symm (beq_eq_false_iff_ne.mp h.1)), ih h.2]

theorem splitOnChar_append_sep {sep : Char} :
    ∀ {l : Str}, l.contains sep = false → ∀ rest : Str,
      splitOnChar sep (l ++ sep :: rest) = l :: splitOnChar sep rest := by
  intro l
  induction l with
  | nil =>
    intro _ rest
    show splitOnChar sep (sep :: rest) = [] :: splitOnChar sep rest
    rw [splitOnChar, if_pos rfl]
  | cons c cs ih =>
    intro h rest
    rw [List.contains_cons, Bool.or_eq_false_iff] at h
    show splitOnChar sep (c :: (cs ++ sep :: rest)) = _
    rw [splitOnChar, if_neg (Ne.symm (beq_eq_false_iff_ne.mp h.1)), ih h.2 rest]

theorem splitOnChar_joinLines :
    ∀ ls : List Str, ls ≠ [] → (∀ l ∈ ls, l.contains '\n' = false) →
      splitOnChar '\n' (joinLines ls) = ls := by
  intro ls
  induction ls with
  | nil => intro h _; exact absurd rfl h
  | cons l rest ih =>
    intro _ hall
    cases rest with
    | nil =>
      have hj : joinLines [l] = l := by simp [joinLines]
      rw [hj]
      exact splitOnChar_no_sep (hall l (by simp))
    | cons l' rest' =>
      have hj : joinLines (l :: l' :: rest') = l ++ '\n' :: joinLines (l' :: rest') := by
        simp [joinLines, List.intersperse]
      rw [hj, splitOnChar_append_sep (hall l (by simp)) _,
        ih (by simp) fun x hx => hall x (List.mem_cons_of_mem _ hx)]

/-- A run of well-behaved bullet lines only accumulates: each line appends its
item text and records the bullet kind, and nothing is flushed inside the
run. -/
theorem bullet_run :
    ∀ (ts : List Str) (rest : List Str) (lt : Option LKind) (items : List Str),
      (∀ t ∈ ts, goodItem t = true) →
      processLines (ts.map bulletLine ++ rest) lt items =
        processLines rest (if ts.isEmpty then lt else some .bullet) (items ++ ts) := by
  intro ts
  induction ts with
  | nil =>
    intro rest lt items _
    simp
  | cons t ts' ih =>
    intro rest lt items hall
    have hg : goodItem t = true := hall t (by simp)
    have hstrip : pyStrip (bulletLine t) = bulletLine t :=
      pyStrip_marker2 (by decide) hg
    rw [List.map_cons, List.cons_append]
    rw [processLines_bullet_step _ _ _ (by rw [hstrip]; exact classifyLine_bullet t)]
    rw [hstrip]
    rw [show (bulletLine t).drop 2 = t from rfl]
    rw [ih rest (some .bullet) (items ++ [t]) fun x hx => hall x (List.mem_cons_of_mem _ hx)]
    rw [ite_self]
    rw [show (items ++ [t]) ++ ts' = items ++ t :: ts' from by simp]
    rfl

/-- C2 counterexample.  On `"- a\n1. x"` — a bullet line immediately followed
by a numbered line with no blank line — the claim demands the two blocks
`[BulletList ["a"], NumberedList ["x"]]`; the code never flushes on the kind
switch and emits one merged `NumberedList ["a", "x"]`. -/
theorem claim_C2_cex :
    processContent (chars "- a\n1. x") = some [Block.numberedList [chars "a", chars "x"]] ∧
      processContent (chars "- a\n1. x") ≠
        some [Block.bulletList [chars "a"], Block.numberedList [chars "x"]] := by
  decide

/-- C2 (amended).  Switching list kind mid-run does not close the open list:
the bullet items and the following numbered item accumulate into a single
list block whose kind is that of the last item line (numbered).  Consecutive
bullet lines still produce a single `BulletList` block. -/
theorem claim_C2 (ts : List Str) (u : Str)
    (h1 : ∀ t ∈ ts, goodItem t = true) (h2 : goodItem u = true) :
    processContent (joinLines (ts.map bulletLine ++ [numberedLine u])) =
        some [Block.numberedList (ts ++ [u])] ∧
      (ts ≠ [] →
        processContent (joinLines (ts.map bulletLine)) = some [Block.bulletList ts]) := by
  have hbl : ∀ x ∈ ts.map bulletLine, x.contains '\n' = false := by
    intro x hx
    obtain ⟨t, ht, rfl⟩ := List.mem_map.mp hx
    show t.contains '\n' = false
    exact goodItem_no_newline (h1 t ht)
  have hnstrip : pyStrip (numberedLine u) = numberedLine u :=
    pyStrip_marker2 (by decide) (goodItem_cons (by decide) h2)
  constructor
  · rw [processContent, splitOnChar_joinLines _ (by simp) ?hnl]
    case hnl =>
      intro x hx
      rcases List.mem_append.mp hx with h | h
      · exact hbl x h
      · rw [List.mem_singleton.mp h]
        show u.contains '\n' = false
        exact goodItem_no_newline h2
    rw [bullet_run ts [numberedLine u] none [] h1]
    rw [processLines_numbered_step _ _ _
      (by rw [hnstrip]; exact classifyLine_numbered u)]
    rw [processLines_nil]
    rw [show ([] : List Str) ++ ts = ts from by simp]
    rw [flushBlocks]
    rw [if_neg (by simp)]
  · intro hne
    rw [processContent, splitOnChar_joinLines _ (by simpa using hne) hbl]
    have := bullet_run ts [] none [] h1
    rw [show (ts.map bulletLine) ++ ([] : List Str) = ts.map bulletLine from by simp] at this
    rw [this, if_neg (by simpa using hne), processLines_nil]
    rw [show ([] : List Str) ++ ts = ts from by simp]
    rw [flushBlocks]
    rw [if_neg (by simpa using hne)]
    decide

/-- Witness instantiating `claim_C2` at the bullet items `a`, `b` followed by
the numbered item `x`. -/
theorem claim_C2_witness :
    processContent (joinLines ([chars "a", chars "b"].map bulletLine ++
        [numberedLine (chars "x")])) =
      some [Block.numberedList ([chars "a", chars "b"] ++ [chars "x"])] :=
  (claim_C2 [chars "a", chars "b"] (chars "x") (by decide) (by decide)).1

/-- C3 counterexample.  After the table opener `"| a | b |"`, the line
`"x | y"` has exactly one pipe; the claim says it must close the table and
stand alone, but the code absorbs it as a table row (continuation only
requires one pipe), so the table has two data rows and no separate
`"x | y"` block exists. -/
theorem claim_C3_cex :
    processContent (chars "| a | b |\nx | y\nend") =
        some [Block.table [[chars "a", chars "b"], [chars "x", chars "y"]] 2,
          Block.para (chars "end")] ∧
      collectTable [chars "x | y", chars "end"] = ([chars "x | y"], [chars "end"]) := by
  decide

/-- C3 (amended).  Once a table accumulator is open, a subsequent raw line is
appended (stripped) if and only if it contains at least one pipe character;
the first line with no pipe at all (including a blank line) closes the table
and is left for the main loop. -/
theorem claim_C3 (ls : List Str) :
    collectTable ls = ((ls.takeWhile fun l => l.contains '|').map pyStrip,
      ls.dropWhile fun l => l.contains '|') := by
  induction ls with
  | nil => rfl
  | cons l rest ih =>
    rw [collectTable]
    by_cases h : l.contains '|'
    · rw [if_pos h, ih]
      rw [List.takeWhile_cons, List.dropWhile_cons, h]
      simp
    · have hb : l.contains '|' = false := eq_false_of_ne_true h
      rw [if_neg h]
      rw [List.takeWhile_cons, List.dropWhile_cons, hb]
      simp

/-- C4 counterexample.  The line `"[DIAGRAM: oops"` contains the tag opener
but no closing bracket; the claim demands a `Paragraph` fallback, but the
code emits nothing at all for the line. -/
theorem claim_C4_cex :
    processContent (chars "[DIAGRAM: oops") = some [] ∧
      processContent (chars "[DIAGRAM: oops") ≠
        some [Block.para (chars "[DIAGRAM: oops")] := by
  decide

/-- C4 (amended).  A line that reaches the diagram arm but whose tag has no
matching closing bracket is silently dropped: any open list is still flushed
first, but no block — in particular no `Paragraph` — is emitted for the
line itself. -/
theorem claim_C4 (l : Str) (rest : List Str) (lt : Option LKind) (items : List Str)
    (h1 : classifyLine (pyStrip l) = LineClass.diagram)
    (h2 : diagMatch (pyStrip l) = none) :
    processLines (l :: rest) lt items =
      (processLines rest (if items.isEmpty then lt else none) []).map
        fun tl => flushBlocks lt items ++ tl := by
  rw [processLines_diagram_step rest lt items h1, h2]
  cases processLines rest (if items.isEmpty then lt else none) [] with
  | none => rfl
  | some tl => simp

/-- Witness instantiating `claim_C4` on the malformed line
`"[DIAGRAM: oops"`. -/
theorem claim_C4_witness :
    processLines [chars "[DIAGRAM: oops"] none [] =
      (processLines [] (none : Option LKind) []).map fun tl => flushBlocks none [] ++ tl := by
  have h := claim_C4 (chars "[DIAGRAM: oops") [] none [] (by decide) (by decide)
  simpa using h

/-- C5 (confirmed).  Heading classification: `"## " + t` (which can never
also start with `"### "`) yields the level-1 heading the code passes to
`add_heading`, `"### " + t` yields level 2 (the deepest), and `"# " + t`
yields level 0 (the top level); each arm flushes any open list first and
takes the text after the marker and one space.  The spec's end-to-end
scenario follows concretely. -/
theorem claim_C5 (t : Str) (rest : List Str) (lt : Option LKind) (items : List Str)
    (h : goodItem t = true) :
    (processLines (('#' :: '#' :: ' ' :: t) :: rest) lt items =
        (processLines rest (if items.isEmpty then lt else none) []).map
          fun tl => flushBlocks lt items ++ Block.heading 1 t :: tl) ∧
      (processLines (('#' :: '#' :: '#' :: ' ' :: t) :: rest) lt items =
        (processLines rest (if items.isEmpty then lt else none) []).map
          fun tl => flushBlocks lt items ++ Block.heading 2 t :: tl) ∧
      (processLines (('#' :: ' ' :: t) :: rest) lt items =
        (processLines rest (if items.isEmpty then lt else none) []).map
          fun tl => flushBlocks lt items ++ Block.heading 0 t :: tl) ∧
      processContent (chars "## Title\nSome text.\n") =
        some [Block.heading 1 (chars "Title"), Block.para (chars "Some text.")] := by
  have hs1 : pyStrip ('#' :: '#' :: ' ' :: t) = '#' :: '#' :: ' ' :: t :=
    pyStrip_marker2 (by decide) (goodItem_cons (by decide) h)
  have hs2 : pyStrip ('#' :: '#' :: '#' :: ' ' :: t) = '#' :: '#' :: '#' :: ' ' :: t :=
    pyStrip_marker2 (by decide) (goodItem_cons (by decide) (goodItem_cons (by decide) h))
  have hs0 : pyStrip ('#' :: ' ' :: t) = '#' :: ' ' :: t :=
    pyStrip_marker2 (by decide) h
  refine ⟨?_, ?_, ?_, by decide⟩
  · rw [processLines_heading1_step rest lt items (by rw [hs1]; exact classifyLine_heading1 t)]
    rw [hs1]
    rfl
  · rw [processLines_heading2_step rest lt items (by rw [hs2]; exact classifyLine_heading2 t)]
    rw [hs2]
    rfl
  · rw [processLines_heading0_step rest lt items (by rw [hs0]; exact classifyLine_heading0 t)]
    rw [hs0]
    rfl

/-- Witness instantiating `claim_C5` at the heading text `T`. -/
theorem claim_C5_witness :
    processLines [('#' :: '#' :: ' ' :: chars "T")] none [] =
      some [Block.heading 1 (chars "T")] := by
  have h := (claim_C5 (chars "T") [] none [] (by decide)).1
  rw [h]
  decide

end ImgWord
